import Mathlib

/-!
# Card flip game (`src/App.jsx`): deck generation, scoring and the flip state machine

A shallow embedding of the game logic of the `App` component.

* Arrays are lists; tile ids (`crypto.randomUUID()` strings) and symbols are values of
  arbitrary types `ι` and `σ` with decidable equality.
* The platform random source is explicit.  `rnd i` is the value that
  `Math.floor(Math.random() * (i + 1))` takes in the iteration of `shuffle` whose loop
  index is `i` (every index is visited once, so a function of `i` is the sequence of
  draws); `Math.random()` lies in `[0, 1)`, which is the bound `rnd i ≤ i`.
  `uuid k` is the result of the `k`-th call of `crypto.randomUUID()`.
* The React state of `App` is a record; an event (click, timeout callback, interval
  tick, restart) runs its handler on the record and then the effects whose dependencies
  changed, as one atomic step.  Timeouts scheduled with `setTimeout` and not fired yet
  are kept in the record as the list of their delays.
-/

set_option linter.unusedSectionVars false

namespace CardGame

/-! ## Constants -/

/-- The symbol set, `EMOJIS`. -/
def EMOJIS : List String := ["🍒", "🍋", "🍇", "🍉", "🥝", "🍑", "🍓", "🍍"]

/-- Delay before a mismatched pair is hidden. -/
def FLIP_DELAY_MS : Nat := 700

/-- Delay before a matched pair is released. -/
def MATCH_DELAY_MS : Nat := 350

/-- A tile `{ id, emoji }`. -/
structure Card (ι σ : Type) where
  id : ι
  emoji : σ
deriving DecidableEq, Repr

/-! ## `shuffle` and `buildDeck` -/

section Deck

variable {α ι σ : Type}

/-- The destructuring swap `[result[i], result[j]] = [result[j], result[i]]`: both
right-hand values are read first, then position `i` and position `j` are written.
Both indices are in range whenever the loop of `shuffle` runs it. -/
def swap (result : List α) (i j : Nat) : List α :=
  match result[i]?, result[j]? with
  | some x, some y => (result.set i y).set j x
  | _, _ => result

/-- The loop `for (let i = result.length - 1; i > 0; i -= 1)` of `shuffle`, started at
loop index `i`; `rnd i` is the swap index `j` drawn in the iteration with index `i`. -/
def shuffleLoop (rnd : Nat → Nat) : Nat → List α → List α
  | 0, result => result
  | i + 1, result => shuffleLoop rnd i (swap result (i + 1) (rnd (i + 1)))

/-- The function `shuffle`: copy the array, run the loop from the last index. -/
def shuffle (rnd : Nat → Nat) (array : List α) : List α :=
  shuffleLoop rnd (array.length - 1) array

/-- The `flatMap` of `buildDeck`: two tiles per symbol, each with a fresh id; `k` is the
number of ids drawn so far. -/
def pairs (uuid : Nat → ι) : Nat → List σ → List (Card ι σ)
  | _, [] => []
  | k, emoji :: rest =>
    { id := uuid k, emoji := emoji } :: { id := uuid (k + 1), emoji := emoji } ::
      pairs uuid (k + 2) rest

/-- The body of `buildDeck` over a symbol list: pair up, then shuffle. -/
def buildDeckOf (symbols : List σ) (uuid : Nat → ι) (rnd : Nat → Nat) : List (Card ι σ) :=
  shuffle rnd (pairs uuid 0 symbols)

/-- The function `buildDeck`, which uses the constant `EMOJIS`. -/
def buildDeck (uuid : Nat → ι) (rnd : Nat → Nat) : List (Card ι String) :=
  buildDeckOf EMOJIS uuid rnd

/-- The swap-index sequences the loop can draw at the loop indices `1, …, m`, each as the
list `[j₁, …, jₘ]` with `jᵢ` one of `0, …, i`. -/
def drawSeqs : Nat → List (List Nat)
  | 0 => [[]]
  | m + 1 => (drawSeqs m).flatMap (fun js => (List.range (m + 2)).map (fun j => js ++ [j]))

/-- A draw sequence as a random source: the draw at loop index `i` is entry `i - 1`. -/
def drawsOf (js : List Nat) (i : Nat) : Nat :=
  js.getD (i - 1) 0

end Deck

/-! ## Game state -/

/-- The `useState` cells of `App` that the game logic reads or writes, and the
timeouts that are scheduled and have not fired. -/
structure State (ι σ : Type) where
  cards : List (Card ι σ)
  flippedIds : List ι
  matchedIds : List ι
  attempts : Nat
  timeMs : Nat
  timerRunning : Bool
  lockBoard : Bool
  hasSubmitted : Bool
  saveError : String
  playerName : String
  timeouts : List Nat

/-- The events the component reacts to. -/
inductive Event (ι σ : Type) where
  | flip (cardId : ι)
  | timeout (k : Nat)
  | tick
  | restart (deck : List (Card ι σ))

section Game

variable {ι σ : Type} [DecidableEq ι] [DecidableEq σ]

/-- The state at mount: the initial values of the `useState` cells. -/
def newGame (deck : List (Card ι σ)) : State ι σ :=
  { cards := deck, flippedIds := [], matchedIds := [], attempts := 0, timeMs := 0,
    timerRunning := false, lockBoard := false, hasSubmitted := false, saveError := "",
    playerName := "", timeouts := [] }

/-- The memo `score`: `Math.max(0, 1000 - attempts * 25)`. -/
def score (attempts : Nat) : Int :=
  max 0 (1000 - (attempts : Int) * 25)

/-- The derived value `allMatched`. -/
def allMatched (s : State ι σ) : Bool :=
  s.matchedIds.length == s.cards.length && decide (s.cards.length > 0)

/-- The lookup `cards.find((card) => card.id === id)`. -/
def findCard (cards : List (Card ι σ)) (id : ι) : Option (Card ι σ) :=
  cards.find? (fun card => decide (card.id = id))

/-- The pair-evaluation effect (dependencies `[flippedIds, cards]`). -/
def pairEffect (s : State ι σ) : State ι σ :=
  match s.flippedIds with
  | [firstId, secondId] =>
    match findCard s.cards firstId, findCard s.cards secondId with
    | some firstCard, some secondCard =>
      if firstCard.emoji = secondCard.emoji then
        { s with
          attempts := s.attempts + 1
          matchedIds := s.matchedIds ++ [firstId, secondId]
          timeouts := s.timeouts ++ [MATCH_DELAY_MS] }
      else
        { s with
          attempts := s.attempts + 1
          timeouts := s.timeouts ++ [FLIP_DELAY_MS] }
    | _, _ => s
  | _ => s

/-- The completion effect (dependency `[allMatched]`): it runs when `allMatched` differs
from its value at the previous render, and stops the timer when it is true. -/
def completionEffect (before : Bool) (s : State ι σ) : State ι σ :=
  if allMatched s ≠ before ∧ allMatched s = true then { s with timerRunning := false } else s

/-- The effects that follow a handler which wrote `flippedIds`: the pair effect, then
(on the render its writes cause) the completion effect. -/
def runEffects (before : State ι σ) (s : State ι σ) : State ι σ :=
  completionEffect (allMatched before) (pairEffect s)

/-- The handler `handleFlip`: `none` when it returns before writing any state. -/
def handleFlip (s : State ι σ) (cardId : ι) : Option (State ι σ) :=
  if s.lockBoard then none
  else if s.flippedIds.contains cardId || s.matchedIds.contains cardId then none
  else
    some { s with
      timerRunning := if !s.timerRunning then true else s.timerRunning
      lockBoard := if s.flippedIds.length = 1 then true else s.lockBoard
      flippedIds := (s.flippedIds ++ [cardId]).take 2 }

/-- A click on a tile: `handleFlip`, and the effects when it wrote state. -/
def onFlip (s : State ι σ) (cardId : ι) : State ι σ :=
  match handleFlip s cardId with
  | none => s
  | some s' => runEffects s s'

/-- The body of both `setTimeout` callbacks: `setFlippedIds([]); setLockBoard(false)`. -/
def resolution (s : State ι σ) : State ι σ :=
  { s with flippedIds := [], lockBoard := false }

/-- The `k`-th scheduled timeout fires (nothing happens when there is none). -/
def onTimeout (s : State ι σ) (k : Nat) : State ι σ :=
  if k < s.timeouts.length then
    runEffects s { resolution s with timeouts := s.timeouts.eraseIdx k }
  else s

/-- The interval callback `setTimeMs((prev) => prev + 1000)`; the interval exists only
while `timerRunning`. -/
def onTick (s : State ι σ) : State ι σ :=
  if s.timerRunning then { s with timeMs := s.timeMs + 1000 } else s

/-- The handler `handleRestart`; `deck` is the value of `buildDeck()`.  Scheduled
timeouts are not cleared. -/
def handleRestart (s : State ι σ) (deck : List (Card ι σ)) : State ι σ :=
  { s with
    cards := deck
    flippedIds := []
    matchedIds := []
    attempts := 0
    timeMs := 0
    timerRunning := false
    lockBoard := false
    hasSubmitted := false
    saveError := ""
    playerName := "" }

/-- A click on Restart: `handleRestart`, then the effects. -/
def onRestart (s : State ι σ) (deck : List (Card ι σ)) : State ι σ :=
  runEffects s (handleRestart s deck)

/-- One event. -/
def step (s : State ι σ) : Event ι σ → State ι σ
  | .flip cardId => onFlip s cardId
  | .timeout k => onTimeout s k
  | .tick => onTick s
  | .restart deck => onRestart s deck

/-- A sequence of events, in order. -/
def run (s : State ι σ) (evs : List (Event ι σ)) : State ι σ :=
  evs.foldl step s

/-- The event is a flip that `handleFlip` accepts while exactly one tile is flipped:
the second flip of a round. -/
def isSecondFlip (s : State ι σ) : Event ι σ → Bool
  | .flip cardId =>
    !s.lockBoard && !(s.flippedIds.contains cardId || s.matchedIds.contains cardId) &&
      s.flippedIds.length == 1
  | _ => false

/-- The number of completed two-flip rounds in a sequence of events run from `s`. -/
def completedRounds (s : State ι σ) : List (Event ι σ) → Nat
  | [] => 0
  | e :: es => (if isSecondFlip s e then 1 else 0) + completedRounds (step s e) es

/-- The event asks for nothing outside the deck: a flip names a tile of `deck`, and
there is no restart. -/
def inGame (deck : List (Card ι σ)) : Event ι σ → Bool
  | .flip cardId => decide (cardId ∈ deck.map Card.id)
  | .timeout _ => true
  | .tick => true
  | .restart _ => false

end Game

/-! ## Concrete games used to evaluate the definitions -/

/-- A deck over the symbols 0 and 1. -/
def deckAB : List (Card Nat Nat) :=
  [{ id := 0, emoji := 0 }, { id := 1, emoji := 1 }, { id := 2, emoji := 0 },
   { id := 3, emoji := 1 }]

/-- A second deck over the same symbols, with other ids. -/
def deckAB2 : List (Card Nat Nat) :=
  [{ id := 10, emoji := 0 }, { id := 11, emoji := 1 }, { id := 12, emoji := 1 },
   { id := 13, emoji := 0 }]

/-- Tiles 0 and 1 (a mismatch) are flipped, the game is restarted while their resolution is
pending, and tile 10 of the new deck is flipped. -/
def restartedDuringDelay : State Nat Nat :=
  run (newGame deckAB) [.flip 0, .flip 1, .restart deckAB2, .flip 10]

/-- One tile of `deckAB` is flipped. -/
def oneFlipped : State Nat Nat :=
  run (newGame deckAB) [.flip 0]

/-! ## `swap` and `shuffle` permute -/

section ShuffleLemmas

variable {α : Type}

/-- Overwriting the entry `a` at position `i` by `b` trades one `a` for one `b`. -/
theorem cons_set_perm (l : List α) (i : Nat) (a b : α) (h : l[i]? = some a) :
    (a :: l.set i b).Perm (b :: l) := by
  induction l generalizing i with
  | nil => simp at h
  | cons x t ih =>
    cases i with
    | zero =>
      simp only [List.getElem?_cons_zero, Option.some.injEq] at h
      subst h
      exact List.Perm.swap b x t
    | succ i =>
      simp only [List.getElem?_cons_succ] at h
      exact (List.Perm.swap x a _).trans (((ih i h).cons x).trans (List.Perm.swap b x t))

theorem swap_of_lt (l : List α) (i j : Nat) (hi : i < l.length) (hj : j < l.length) :
    swap l i j = (l.set i l[j]).set j l[i] := by
  simp [swap, List.getElem?_eq_getElem hi, List.getElem?_eq_getElem hj]

theorem swap_perm (l : List α) (i j : Nat) : (swap l i j).Perm l := by
  unfold swap
  split
  · rename_i x y hx hy
    have h1 : (x :: l.set i y).Perm (y :: l) := cons_set_perm l i x y hx
    have hy2 : (l.set i y)[j]? = some y := by
      rw [List.getElem?_set]
      split
      · rename_i hij
        have hi : i < l.length := (List.getElem?_eq_some.1 hx).1
        simp [hi]
      · exact hy
    have h2 : (y :: (l.set i y).set j x).Perm (x :: l.set i y) :=
      cons_set_perm _ j y x hy2
    exact (h2.trans h1).cons_inv
  · exact List.Perm.refl l

theorem swap_length (l : List α) (i j : Nat) : (swap l i j).length = l.length :=
  (swap_perm l i j).length_eq

/-- The entries of a swapped array. -/
theorem swap_getElem? (l : List α) (i j k : Nat) (hi : i < l.length) (hj : j < l.length) :
    (swap l i j)[k]? = if k = j then l[i]? else if k = i then l[j]? else l[k]? := by
  rw [swap_of_lt l i j hi hj]
  simp only [List.getElem?_set, List.length_set]
  by_cases hkj : k = j
  · subst hkj
    simp [hj, List.getElem?_eq_getElem hi]
  · by_cases hki : k = i
    · subst hki
      simp [hkj, Ne.symm hkj, hi, List.getElem?_eq_getElem hj]
    · simp [hkj, hki, Ne.symm hkj, Ne.symm hki]

theorem shuffleLoop_perm (rnd : Nat → Nat) (i : Nat) (l : List α) :
    (shuffleLoop rnd i l).Perm l := by
  induction i generalizing l with
  | zero => exact List.Perm.refl l
  | succ i ih => exact (ih _).trans (swap_perm l (i + 1) (rnd (i + 1)))

theorem shuffle_perm (rnd : Nat → Nat) (l : List α) : (shuffle rnd l).Perm l :=
  shuffleLoop_perm rnd _ l

/-- The entry the swap writes at position `i`. -/
theorem swap_getElem?_left (l : List α) (i j : Nat) (hi : i < l.length) (hj : j < l.length) :
    (swap l i j)[i]? = l[j]? := by
  rw [swap_getElem? l i j i hi hj]
  by_cases hij : i = j
  · simp [hij]
  · simp [hij]

/-- The loop started at index `i` leaves the positions above `i` alone. -/
theorem shuffleLoop_getElem?_above (rnd : Nat → Nat) (i : Nat) (l : List α) (k : Nat)
    (hik : i < k) (hr : ∀ m, 0 < m → m ≤ i → rnd m ≤ m) (hi : i < l.length) :
    (shuffleLoop rnd i l)[k]? = l[k]? := by
  induction i generalizing l with
  | zero => rfl
  | succ i ih =>
    have hj : rnd (i + 1) ≤ i + 1 := hr (i + 1) (Nat.succ_pos i) (Nat.le_refl _)
    show (shuffleLoop rnd i (swap l (i + 1) (rnd (i + 1))))[k]? = l[k]?
    rw [ih _ (by omega) (fun m h0 hm => hr m h0 (by omega))
      (by rw [swap_length]; omega),
      swap_getElem? l (i + 1) (rnd (i + 1)) k hi (by omega)]
    rw [if_neg (by omega), if_neg (by omega)]

/-- The loop started at index `i` reads the draws at the indices `1, …, i` only. -/
theorem shuffleLoop_congr (rnd rnd' : Nat → Nat) (i : Nat) (l : List α)
    (h : ∀ m, 0 < m → m ≤ i → rnd m = rnd' m) :
    shuffleLoop rnd i l = shuffleLoop rnd' i l := by
  induction i generalizing l with
  | zero => rfl
  | succ i ih =>
    show shuffleLoop rnd i (swap l (i + 1) (rnd (i + 1))) =
      shuffleLoop rnd' i (swap l (i + 1) (rnd' (i + 1)))
    rw [h (i + 1) (Nat.succ_pos i) (Nat.le_refl _)]
    exact ih _ (fun m h0 hm => h m h0 (by omega))

/-- Two draw sequences that shuffle a duplicate-free array to the same result agree. -/
theorem shuffleLoop_inj (rnd rnd' : Nat → Nat) (i : Nat) (l : List α) (hl : l.Nodup)
    (hi : i < l.length) (hr : ∀ m, 0 < m → m ≤ i → rnd m ≤ m)
    (hr' : ∀ m, 0 < m → m ≤ i → rnd' m ≤ m)
    (h : shuffleLoop rnd i l = shuffleLoop rnd' i l) :
    ∀ m, 0 < m → m ≤ i → rnd m = rnd' m := by
  induction i generalizing l with
  | zero => intro m h0 hm; omega
  | succ i ih =>
    have hj : rnd (i + 1) ≤ i + 1 := hr (i + 1) (Nat.succ_pos i) (Nat.le_refl _)
    have hj' : rnd' (i + 1) ≤ i + 1 := hr' (i + 1) (Nat.succ_pos i) (Nat.le_refl _)
    have h' : shuffleLoop rnd i (swap l (i + 1) (rnd (i + 1))) =
        shuffleLoop rnd' i (swap l (i + 1) (rnd' (i + 1))) := h
    have e := congrArg (fun r => r[i + 1]?) h'
    simp only at e
    rw [shuffleLoop_getElem?_above rnd i _ (i + 1) (Nat.lt_succ_self i)
        (fun m h0 hm => hr m h0 (by omega)) (by rw [swap_length]; omega),
      shuffleLoop_getElem?_above rnd' i _ (i + 1) (Nat.lt_succ_self i)
        (fun m h0 hm => hr' m h0 (by omega)) (by rw [swap_length]; omega),
      swap_getElem?_left l (i + 1) (rnd (i + 1)) hi (by omega),
      swap_getElem?_left l (i + 1) (rnd' (i + 1)) hi (by omega)] at e
    have hje : rnd (i + 1) = rnd' (i + 1) :=
      List.getElem?_inj (by omega) hl e
    rw [← hje] at h'
    have hrest := ih (swap l (i + 1) (rnd (i + 1)))
      ((swap_perm l _ _).nodup_iff.2 hl) (by rw [swap_length]; omega)
      (fun m h0 hm => hr m h0 (by omega)) (fun m h0 hm => hr' m h0 (by omega)) h'
    intro m h0 hm
    by_cases hmi : m = i + 1
    · rw [hmi]; exact hje
    · exact hrest m h0 (by omega)

/-- In a rearrangement of a duplicate-free array that keeps the positions above `i`, an
entry at a position up to `i` comes from a position up to `i`. -/
theorem position_below (l p : List α) (hl : l.Nodup) (hp : p.Perm l) (i : Nat)
    (hfix : ∀ k, i < k → p[k]? = l[k]?) (k : Nat) (hki : k ≤ i) (hk : k < p.length) :
    ∃ j, j ≤ i ∧ j < l.length ∧ l[j]? = p[k]? := by
  have hmem : p[k] ∈ l := hp.subset (List.getElem_mem hk)
  obtain ⟨j, hj, hjk⟩ := List.getElem_of_mem hmem
  by_cases hji : j ≤ i
  · exact ⟨j, hji, hj, by rw [List.getElem?_eq_getElem hj, List.getElem?_eq_getElem hk, hjk]⟩
  · exfalso
    have h1 : p[j]? = l[j]? := hfix j (by omega)
    have h2 : p[j]? = p[k]? := by
      rw [h1, List.getElem?_eq_getElem hj, List.getElem?_eq_getElem hk, hjk]
    have := List.getElem?_inj (by rw [hp.length_eq]; exact hj) (hp.nodup_iff.2 hl) h2
    omega

/-- Every rearrangement that keeps the positions above `i` is reached by some draws. -/
theorem shuffleLoop_surj (i : Nat) (l p : List α) (hl : l.Nodup) (hi : i < l.length)
    (hp : p.Perm l) (hfix : ∀ k, i < k → p[k]? = l[k]?) :
    ∃ rnd : Nat → Nat, (∀ m, rnd m ≤ m) ∧ shuffleLoop rnd i l = p := by
  induction i generalizing l with
  | zero =>
    refine ⟨fun _ => 0, fun m => Nat.zero_le m, ?_⟩
    show l = p
    apply List.ext_getElem?
    intro k
    by_cases hk : 0 < k
    · exact (hfix k hk).symm
    · have hk0 : k = 0 := by omega
      subst hk0
      obtain ⟨j, hj0, -, hj⟩ := position_below l p hl hp 0 hfix 0 (Nat.le_refl 0)
        (by rw [hp.length_eq]; exact hi)
      have : j = 0 := by omega
      subst this
      exact hj
  | succ i ih =>
    obtain ⟨j, hji, hjl, hj⟩ := position_below l p hl hp (i + 1) hfix (i + 1)
      (Nat.le_refl _) (by rw [hp.length_eq]; exact hi)
    have hfix' : ∀ k, i < k → p[k]? = (swap l (i + 1) j)[k]? := by
      intro k hk
      by_cases hk1 : k = i + 1
      · rw [hk1, swap_getElem?_left l (i + 1) j hi hjl, hj]
      · rw [swap_getElem? l (i + 1) j k hi hjl, if_neg (by omega), if_neg hk1]
        exact hfix k (by omega)
    obtain ⟨rnd0, hr0, h0⟩ := ih (swap l (i + 1) j) ((swap_perm l _ _).nodup_iff.2 hl)
      (by rw [swap_length]; omega) (hp.trans (swap_perm l _ _).symm) hfix'
    refine ⟨fun m => if m = i + 1 then j else rnd0 m, fun m => ?_, ?_⟩
    · by_cases hm : m = i + 1
      · simp only [hm, if_true]; exact hji
      · simp only [hm, if_false]; exact hr0 m
    · show shuffleLoop _ i (swap l (i + 1) (if i + 1 = i + 1 then j else rnd0 (i + 1))) = p
      rw [if_pos rfl, ← h0]
      exact shuffleLoop_congr _ _ i _ (fun m _ hm => by
        have : m ≠ i + 1 := by omega
        simp [this])

/-- Shuffling a duplicate-free array reaches every rearrangement of it. -/
theorem shuffle_surj (l p : List α) (hl : l.Nodup) (hp : p.Perm l) :
    ∃ rnd : Nat → Nat, (∀ i, rnd i ≤ i) ∧ shuffle rnd l = p := by
  by_cases hn : l = []
  · subst hn
    exact ⟨fun _ => 0, fun i => Nat.zero_le i, hp.eq_nil.symm⟩
  · have hpos : 0 < l.length := List.length_pos.2 hn
    exact shuffleLoop_surj (l.length - 1) l p hl (by omega) hp (fun k hk => by
      rw [List.getElem?_eq_none (by rw [hp.length_eq]; omega),
        List.getElem?_eq_none (by omega)])

/-- Draws that shuffle a duplicate-free array to the same result are the same draws. -/
theorem shuffle_inj (l : List α) (hl : l.Nodup) (rnd rnd' : Nat → Nat)
    (hr : ∀ i, 0 < i → i < l.length → rnd i ≤ i)
    (hr' : ∀ i, 0 < i → i < l.length → rnd' i ≤ i)
    (h : shuffle rnd l = shuffle rnd' l) :
    ∀ i, 0 < i → i < l.length → rnd i = rnd' i := by
  intro i h0 hi
  exact shuffleLoop_inj rnd rnd' (l.length - 1) l hl (by omega)
    (fun m hm0 hm => hr m hm0 (by omega)) (fun m hm0 hm => hr' m hm0 (by omega)) h i h0
    (by omega)

/-- The draw sequences over the loop indices `1, …, m`: the lists of length `m` whose
entry `k` is at most `k + 1`. -/
theorem mem_drawSeqs (m : Nat) (js : List Nat) :
    js ∈ drawSeqs m ↔ js.length = m ∧ ∀ k, k < m → js.getD k 0 ≤ k + 1 := by
  induction m generalizing js with
  | zero =>
    simp only [drawSeqs, List.mem_singleton]
    constructor
    · intro h; subst h; exact ⟨rfl, fun k hk => absurd hk (Nat.not_lt_zero k)⟩
    · intro h; exact List.length_eq_zero.1 h.1
  | succ m ih =>
    simp only [drawSeqs, List.mem_flatMap, List.mem_map, List.mem_range]
    constructor
    · rintro ⟨js0, hjs0, j, hj, rfl⟩
      obtain ⟨hlen, hb⟩ := (ih js0).1 hjs0
      refine ⟨by simp [hlen], fun k hk => ?_⟩
      by_cases hkm : k < m
      · rw [List.getD_append _ _ _ _ (by omega)]
        exact hb k hkm
      · have hk' : k = m := by omega
        rw [List.getD_append_right _ _ _ _ (by omega), hk', hlen]
        simp only [Nat.sub_self, List.getD_cons_zero]
        omega
    · rintro ⟨hlen, hb⟩
      rcases List.eq_nil_or_concat js with hnil | ⟨js0, j, hcat⟩
      · rw [hnil] at hlen; simp at hlen
      · rw [List.concat_eq_append] at hcat
        subst hcat
        have hlen0 : js0.length = m := by simpa using hlen
        refine ⟨js0, (ih js0).2 ⟨hlen0, fun k hk => ?_⟩, j, ?_, rfl⟩
        · have := hb k (by omega)
          rwa [List.getD_append _ _ _ _ (by omega)] at this
        · have := hb m (Nat.lt_succ_self m)
          rw [List.getD_append_right _ _ _ _ (by omega), hlen0] at this
          simp only [Nat.sub_self, List.getD_cons_zero] at this
          omega

theorem nodup_drawSeqs (m : Nat) : (drawSeqs m).Nodup := by
  induction m with
  | zero => simp [drawSeqs]
  | succ m ih =>
    simp only [drawSeqs]
    rw [List.nodup_flatMap]
    refine ⟨fun js _ => (List.nodup_range (m + 2)).map (fun a b hab => ?_), ?_⟩
    · simpa using hab
    · refine List.Pairwise.imp ?_ ih
      intro a b hab x hxa hxb
      obtain ⟨j, -, hj⟩ := List.mem_map.1 hxa
      obtain ⟨j', -, hj'⟩ := List.mem_map.1 hxb
      exact hab (List.append_inj' (hj.trans hj'.symm) rfl).1

/-- A draw sequence of the enumeration is a valid random source over an array of
length `m + 1`. -/
theorem drawsOf_le (m : Nat) (js : List Nat) (h : js ∈ drawSeqs m) :
    ∀ i, 0 < i → i < m + 1 → drawsOf js i ≤ i := by
  intro i h0 hi
  have := ((mem_drawSeqs m js).1 h).2 (i - 1) (by omega)
  unfold drawsOf
  omega

/-- Every valid random source is, over an array of length `m + 1`, one of the enumerated
draw sequences. -/
theorem exists_drawSeq (m : Nat) (rnd : Nat → Nat) (hr : ∀ i, rnd i ≤ i) :
    ∃ js, js ∈ drawSeqs m ∧ ∀ i, 0 < i → i ≤ m → drawsOf js i = rnd i := by
  refine ⟨(List.range m).map (fun k => rnd (k + 1)), (mem_drawSeqs m _).2 ⟨by simp, ?_⟩, ?_⟩
  · intro k hk
    rw [List.getD_eq_getElem _ _ (by simpa using hk)]
    simpa using hr (k + 1)
  · intro i h0 hi
    unfold drawsOf
    rw [List.getD_eq_getElem _ _ (by simp; omega)]
    simp only [List.getElem_map, List.getElem_range]
    congr 1
    omega

/-- The shuffles of a duplicate-free array by the enumerated draw sequences are its
rearrangements, each once. -/
theorem shuffle_drawSeqs_perm (l : List α) (hl : l.Nodup) :
    ((drawSeqs (l.length - 1)).map (fun js => shuffle (drawsOf js) l)).Perm
      l.permutations := by
  have hvalid : ∀ js ∈ drawSeqs (l.length - 1),
      ∀ i, 0 < i → i < l.length → drawsOf js i ≤ i :=
    fun js hjs i h0 hi => drawsOf_le (l.length - 1) js hjs i h0 (by omega)
  refine (List.perm_ext_iff_of_nodup ?_ (List.nodup_permutations l hl)).2 ?_
  · refine List.Nodup.map_on ?_ (nodup_drawSeqs _)
    intro x hx y hy hxy
    have hagree := shuffle_inj l hl (drawsOf x) (drawsOf y) (hvalid x hx) (hvalid y hy) hxy
    have hlx := ((mem_drawSeqs _ x).1 hx).1
    have hly := ((mem_drawSeqs _ y).1 hy).1
    apply List.ext_getElem (hlx.trans hly.symm)
    intro k hk1 hk2
    have := hagree (k + 1) (Nat.succ_pos k) (by omega)
    unfold drawsOf at this
    rwa [Nat.add_sub_cancel, List.getD_eq_getElem _ _ hk1, List.getD_eq_getElem _ _ hk2]
      at this
  · intro p
    rw [List.mem_permutations, List.mem_map]
    constructor
    · rintro ⟨js, -, rfl⟩
      exact shuffle_perm _ l
    · intro hp
      obtain ⟨rnd, hr, hrp⟩ := shuffle_surj l p hl hp
      obtain ⟨js, hjs, hagree⟩ := exists_drawSeq (l.length - 1) rnd hr
      refine ⟨js, hjs, ?_⟩
      rw [← hrp]
      exact shuffleLoop_congr _ _ _ _ hagree

end ShuffleLemmas

/-! ## The paired list of `buildDeck` -/

section PairsLemmas

variable {ι σ : Type} [DecidableEq σ]

theorem pairs_length (uuid : Nat → ι) (k : Nat) (symbols : List σ) :
    (pairs uuid k symbols).length = 2 * symbols.length := by
  induction symbols generalizing k with
  | nil => rfl
  | cons e rest ih =>
    simp only [pairs, List.length_cons, ih]
    omega

theorem pairs_countP (uuid : Nat → ι) (k : Nat) (symbols : List σ) (s : σ) :
    (pairs uuid k symbols).countP (fun c => decide (c.emoji = s)) = 2 * symbols.count s := by
  induction symbols generalizing k with
  | nil => rfl
  | cons e rest ih =>
    simp only [pairs, List.countP_cons, List.count_cons, ih]
    by_cases he : e = s
    · simp [he]; omega
    · simp [he]

end PairsLemmas

/-! ## Effects leave the flip bookkeeping alone -/

section Lemmas

variable {ι σ : Type} [DecidableEq ι] [DecidableEq σ]

theorem pairEffect_flippedIds (s : State ι σ) : (pairEffect s).flippedIds = s.flippedIds := by
  unfold pairEffect
  split
  · split
    · split <;> rfl
    · rfl
  · rfl

theorem pairEffect_lockBoard (s : State ι σ) : (pairEffect s).lockBoard = s.lockBoard := by
  unfold pairEffect
  split
  · split
    · split <;> rfl
    · rfl
  · rfl

theorem pairEffect_cards (s : State ι σ) : (pairEffect s).cards = s.cards := by
  unfold pairEffect
  split
  · split
    · split <;> rfl
    · rfl
  · rfl

theorem pairEffect_timeMs (s : State ι σ) : (pairEffect s).timeMs = s.timeMs := by
  unfold pairEffect
  split
  · split
    · split <;> rfl
    · rfl
  · rfl

theorem pairEffect_of_length_ne (s : State ι σ) (h : s.flippedIds.length ≠ 2) :
    pairEffect s = s := by
  unfold pairEffect
  split
  · rename_i a b hab
    rw [hab] at h
    exact absurd rfl h
  · rfl

theorem completionEffect_flippedIds (b : Bool) (s : State ι σ) :
    (completionEffect b s).flippedIds = s.flippedIds := by
  unfold completionEffect
  split <;> rfl

theorem completionEffect_lockBoard (b : Bool) (s : State ι σ) :
    (completionEffect b s).lockBoard = s.lockBoard := by
  unfold completionEffect
  split <;> rfl

theorem completionEffect_matchedIds (b : Bool) (s : State ι σ) :
    (completionEffect b s).matchedIds = s.matchedIds := by
  unfold completionEffect
  split <;> rfl

theorem completionEffect_attempts (b : Bool) (s : State ι σ) :
    (completionEffect b s).attempts = s.attempts := by
  unfold completionEffect
  split <;> rfl

theorem completionEffect_cards (b : Bool) (s : State ι σ) :
    (completionEffect b s).cards = s.cards := by
  unfold completionEffect
  split <;> rfl

theorem completionEffect_timeMs (b : Bool) (s : State ι σ) :
    (completionEffect b s).timeMs = s.timeMs := by
  unfold completionEffect
  split <;> rfl

theorem completionEffect_same (s : State ι σ) : completionEffect (allMatched s) s = s := by
  simp [completionEffect]

theorem runEffects_flippedIds (s0 s : State ι σ) :
    (runEffects s0 s).flippedIds = s.flippedIds := by
  simp [runEffects, completionEffect_flippedIds, pairEffect_flippedIds]

theorem runEffects_lockBoard (s0 s : State ι σ) :
    (runEffects s0 s).lockBoard = s.lockBoard := by
  simp [runEffects, completionEffect_lockBoard, pairEffect_lockBoard]

theorem runEffects_cards (s0 s : State ι σ) : (runEffects s0 s).cards = s.cards := by
  simp [runEffects, completionEffect_cards, pairEffect_cards]

theorem runEffects_timeMs (s0 s : State ι σ) : (runEffects s0 s).timeMs = s.timeMs := by
  simp [runEffects, completionEffect_timeMs, pairEffect_timeMs]

theorem runEffects_matchedIds (s0 s : State ι σ) :
    (runEffects s0 s).matchedIds = (pairEffect s).matchedIds := by
  simp [runEffects, completionEffect_matchedIds]

theorem runEffects_attempts (s0 s : State ι σ) :
    (runEffects s0 s).attempts = (pairEffect s).attempts := by
  simp [runEffects, completionEffect_attempts]

theorem handleFlip_none_iff (s : State ι σ) (cardId : ι) :
    handleFlip s cardId = none ↔
      (s.lockBoard = true ∨ cardId ∈ s.flippedIds ∨ cardId ∈ s.matchedIds) := by
  unfold handleFlip
  by_cases hl : s.lockBoard = true
  · simp [hl]
  · by_cases hc : cardId ∈ s.flippedIds
    · simp [hl, hc]
    · by_cases hm : cardId ∈ s.matchedIds
      · simp [hl, hm]
      · simp [hl, hc, hm]

theorem handleFlip_eq_some (s : State ι σ) (cardId : ι)
    (hl : s.lockBoard = false) (hf : cardId ∉ s.flippedIds) (hm : cardId ∉ s.matchedIds) :
    handleFlip s cardId =
      some { s with
        timerRunning := true
        lockBoard := decide (s.flippedIds.length = 1)
        flippedIds := (s.flippedIds ++ [cardId]).take 2 } := by
  unfold handleFlip
  rw [if_neg (by simp [hl]), if_neg (by simp [hf, hm])]
  cases htr : s.timerRunning <;> by_cases h1 : s.flippedIds.length = 1 <;> simp [h1, hl]

/-- An accepted flip, as a state: the handler's writes followed by the effects. -/
theorem onFlip_accepted (s : State ι σ) (cardId : ι)
    (hl : s.lockBoard = false) (hf : cardId ∉ s.flippedIds) (hm : cardId ∉ s.matchedIds) :
    onFlip s cardId =
      runEffects s { s with
        timerRunning := true
        lockBoard := decide (s.flippedIds.length = 1)
        flippedIds := (s.flippedIds ++ [cardId]).take 2 } := by
  unfold onFlip
  rw [handleFlip_eq_some s cardId hl hf hm]

theorem onFlip_ignored (s : State ι σ) (cardId : ι)
    (h : s.lockBoard = true ∨ cardId ∈ s.flippedIds ∨ cardId ∈ s.matchedIds) :
    onFlip s cardId = s := by
  unfold onFlip
  rw [(handleFlip_none_iff s cardId).2 h]

/-- Every flip request is either ignored or accepted. -/
theorem onFlip_cases (s : State ι σ) (cardId : ι) :
    onFlip s cardId = s ∨
    (s.lockBoard = false ∧ cardId ∉ s.flippedIds ∧ cardId ∉ s.matchedIds ∧
      onFlip s cardId =
        runEffects s { s with
          timerRunning := true
          lockBoard := decide (s.flippedIds.length = 1)
          flippedIds := (s.flippedIds ++ [cardId]).take 2 }) := by
  by_cases h : s.lockBoard = true ∨ cardId ∈ s.flippedIds ∨ cardId ∈ s.matchedIds
  · exact Or.inl (onFlip_ignored s cardId h)
  · simp only [not_or, Bool.not_eq_true] at h
    exact Or.inr ⟨h.1, h.2.1, h.2.2, onFlip_accepted s cardId h.1 h.2.1 h.2.2⟩

theorem findCard_some_of_mem (cards : List (Card ι σ)) (id : ι)
    (h : id ∈ cards.map Card.id) : ∃ card, findCard cards id = some card := by
  unfold findCard
  cases hfind : cards.find? (fun card => decide (card.id = id)) with
  | some card => exact ⟨card, rfl⟩
  | none =>
    rw [List.find?_eq_none] at hfind
    obtain ⟨card, hc, hid⟩ := List.mem_map.1 h
    exact absurd (by simpa using hid) (hfind card hc)

/-- The pair effect on a flipped pair whose two tiles are in the deck. -/
theorem pairEffect_pair (s : State ι σ) (a b : ι) (ca cb : Card ι σ)
    (hf : s.flippedIds = [a, b])
    (ha : findCard s.cards a = some ca) (hb : findCard s.cards b = some cb) :
    (pairEffect s).attempts = s.attempts + 1 ∧
    (pairEffect s).matchedIds =
      (if ca.emoji = cb.emoji then s.matchedIds ++ [a, b] else s.matchedIds) := by
  unfold pairEffect
  rw [hf]
  simp only [ha, hb]
  by_cases he : ca.emoji = cb.emoji
  · simp [he]
  · simp [he]

/-- The invariant of the flip bookkeeping. -/
theorem step_preserves_lock_invariant (s : State ι σ) (e : Event ι σ)
    (h : s.flippedIds.length ≤ 2 ∧ (s.lockBoard = true ↔ s.flippedIds.length = 2)) :
    (step s e).flippedIds.length ≤ 2 ∧
      ((step s e).lockBoard = true ↔ (step s e).flippedIds.length = 2) := by
  cases e with
  | flip cardId =>
    simp only [step]
    rcases onFlip_cases s cardId with h0 | ⟨hl, -, -, h1⟩
    · rw [h0]; exact h
    · rw [h1, runEffects_flippedIds, runEffects_lockBoard]
      have hne : s.flippedIds.length ≠ 2 := fun h2 => by
        have := h.2.2 h2
        rw [hl] at this
        exact absurd this (by decide)
      simp only [List.length_take, List.length_append, List.length_singleton,
        decide_eq_true_eq]
      omega
  | timeout k =>
    simp only [step]
    unfold onTimeout
    split
    · rw [runEffects_flippedIds, runEffects_lockBoard]
      simp [resolution]
    · exact h
  | tick =>
    simp only [step]
    unfold onTick
    split
    · exact h
    · exact h
  | restart deck =>
    simp only [step]
    unfold onRestart
    rw [runEffects_flippedIds, runEffects_lockBoard]
    simp [handleRestart]

theorem run_preserves_lock_invariant (evs : List (Event ι σ)) (s : State ι σ)
    (h : s.flippedIds.length ≤ 2 ∧ (s.lockBoard = true ↔ s.flippedIds.length = 2)) :
    (run s evs).flippedIds.length ≤ 2 ∧
      ((run s evs).lockBoard = true ↔ (run s evs).flippedIds.length = 2) := by
  induction evs generalizing s with
  | nil => exact h
  | cons e es ih => exact ih (step s e) (step_preserves_lock_invariant s e h)

theorem onTimeout_fields (s : State ι σ) (k : Nat) :
    (onTimeout s k).matchedIds = s.matchedIds ∧ (onTimeout s k).attempts = s.attempts ∧
    (onTimeout s k).cards = s.cards ∧ (onTimeout s k).timeMs = s.timeMs := by
  unfold onTimeout
  split
  · rw [runEffects_matchedIds, runEffects_attempts, runEffects_cards, runEffects_timeMs,
      pairEffect_of_length_ne _ (by simp [resolution])]
    simp [resolution]
  · exact ⟨rfl, rfl, rfl, rfl⟩

theorem onTimeout_fired (s : State ι σ) (k : Nat) (hk : k < s.timeouts.length) :
    (onTimeout s k).flippedIds = [] ∧ (onTimeout s k).lockBoard = false := by
  unfold onTimeout
  rw [if_pos hk, runEffects_flippedIds, runEffects_lockBoard]
  simp [resolution]

theorem onTick_fields (s : State ι σ) :
    (onTick s).matchedIds = s.matchedIds ∧ (onTick s).attempts = s.attempts ∧
    (onTick s).cards = s.cards ∧ (onTick s).flippedIds = s.flippedIds ∧
    (onTick s).lockBoard = s.lockBoard := by
  unfold onTick
  split
  · exact ⟨rfl, rfl, rfl, rfl, rfl⟩
  · exact ⟨rfl, rfl, rfl, rfl, rfl⟩

/-- A first flip (no tile flipped before it) changes neither `matchedIds` nor `attempts`. -/
theorem onFlip_first (s : State ι σ) (cardId : ι) (h0 : s.flippedIds = []) :
    (onFlip s cardId).matchedIds = s.matchedIds ∧ (onFlip s cardId).attempts = s.attempts := by
  rcases onFlip_cases s cardId with h | ⟨-, -, -, h⟩
  · rw [h]; exact ⟨rfl, rfl⟩
  · rw [h, runEffects_matchedIds, runEffects_attempts,
      pairEffect_of_length_ne _ (by simp [h0])]
    exact ⟨rfl, rfl⟩

/-- An accepted second flip of two tiles of the deck. -/
theorem onFlip_second (s : State ι σ) (a b : ι) (ca cb : Card ι σ)
    (hl : s.lockBoard = false) (hf : s.flippedIds = [a])
    (hb : b ∉ s.flippedIds) (hm : b ∉ s.matchedIds)
    (hca : findCard s.cards a = some ca) (hcb : findCard s.cards b = some cb) :
    (onFlip s b).attempts = s.attempts + 1 ∧
    (onFlip s b).matchedIds =
      (if ca.emoji = cb.emoji then s.matchedIds ++ [a, b] else s.matchedIds) := by
  rw [onFlip_accepted s b hl hb hm, runEffects_matchedIds, runEffects_attempts]
  exact pairEffect_pair _ a b ca cb (by simp [hf]) hca hcb

/-- One event of a game without restart and with flips of deck tiles only: `attempts`
moves by one exactly on a second flip, and the facts this rests on are kept. -/
theorem step_attempts (deck : List (Card ι σ)) (s : State ι σ) (e : Event ι σ)
    (hinv : s.flippedIds.length ≤ 2 ∧ (s.lockBoard = true ↔ s.flippedIds.length = 2))
    (hcards : s.cards = deck) (hfl : ∀ id ∈ s.flippedIds, id ∈ deck.map Card.id)
    (he : inGame deck e = true) :
    (step s e).attempts = s.attempts + (if isSecondFlip s e = true then 1 else 0) ∧
    (step s e).cards = deck ∧
    (∀ id ∈ (step s e).flippedIds, id ∈ deck.map Card.id) := by
  cases e with
  | flip cardId =>
    simp only [step]
    have hin : cardId ∈ deck.map Card.id := by simpa [inGame] using he
    rcases onFlip_cases s cardId with h | ⟨hl, hf, hm, h⟩
    · have hns : isSecondFlip s (Event.flip cardId) = false := by
        by_cases hl : s.lockBoard = true
        · simp [isSecondFlip, hl]
        · have hign : cardId ∈ s.flippedIds ∨ cardId ∈ s.matchedIds := by
            by_contra hcon
            simp only [not_or] at hcon
            have hacc := onFlip_accepted s cardId (by simpa using hl) hcon.1 hcon.2
            have hlen := congrArg (fun t => t.flippedIds.length) (h.symm.trans hacc)
            simp only [runEffects_flippedIds, List.length_take, List.length_append,
              List.length_singleton] at hlen
            have : s.flippedIds.length ≠ 2 := fun h2 => hl (hinv.2.2 h2)
            omega
          rcases hign with hc | hc <;> simp [isSecondFlip, hc]
      rw [h, hns]
      exact ⟨by simp, hcards, hfl⟩
    · rw [h, runEffects_attempts, runEffects_cards, runEffects_flippedIds]
      refine ⟨?_, hcards, ?_⟩
      · match hs : s.flippedIds with
        | [] =>
          rw [pairEffect_of_length_ne _ (by simp [hs])]
          simp [isSecondFlip, hs]
        | [a] =>
          obtain ⟨ca, hca⟩ := findCard_some_of_mem s.cards a
            (hcards ▸ hfl a (by simp [hs]))
          obtain ⟨cb, hcb⟩ := findCard_some_of_mem s.cards cardId (hcards ▸ hin)
          have hp := (pairEffect_pair
            { s with
              timerRunning := true
              lockBoard := decide (s.flippedIds.length = 1)
              flippedIds := (s.flippedIds ++ [cardId]).take 2 }
            a cardId ca cb (by simp [hs]) hca hcb).1
          have hne : ¬ cardId = a := by simpa [hs] using hf
          have hsec : isSecondFlip s (Event.flip cardId) = true := by
            simp [isSecondFlip, hl, hne, hm, hs]
          rw [hs] at hp
          rw [hp, hsec]
          simp
        | a :: b :: rest =>
          exfalso
          have h2 : s.flippedIds.length = 2 := by
            have := hinv.1
            rw [hs] at this ⊢
            simp only [List.length_cons] at this ⊢
            omega
          have := hinv.2.2 h2
          rw [hl] at this
          exact absurd this (by decide)
      · intro id hid
        simp only at hid
        rcases List.mem_append.1 (List.mem_of_mem_take hid) with h1 | h1
        · exact hfl id h1
        · rw [List.mem_singleton.1 h1]; exact hin
  | timeout k =>
    simp only [step, isSecondFlip]
    refine ⟨by simpa using (onTimeout_fields s k).2.1,
      (onTimeout_fields s k).2.2.1.trans hcards, ?_⟩
    unfold onTimeout
    split
    · rw [runEffects_flippedIds]
      simp [resolution]
    · exact hfl
  | tick =>
    simp only [step, isSecondFlip]
    refine ⟨by simpa using (onTick_fields s).2.1, (onTick_fields s).2.2.1.trans hcards, ?_⟩
    rw [(onTick_fields s).2.2.2.1]
    exact hfl
  | restart d => exact absurd he (by simp [inGame])

theorem run_attempts (deck : List (Card ι σ)) (evs : List (Event ι σ)) (s : State ι σ)
    (hinv : s.flippedIds.length ≤ 2 ∧ (s.lockBoard = true ↔ s.flippedIds.length = 2))
    (hcards : s.cards = deck) (hfl : ∀ id ∈ s.flippedIds, id ∈ deck.map Card.id)
    (he : ∀ e ∈ evs, inGame deck e = true) :
    (run s evs).attempts = s.attempts + completedRounds s evs := by
  induction evs generalizing s with
  | nil => simp [run, completedRounds]
  | cons e es ih =>
    have h1 := step_attempts deck s e hinv hcards hfl (he e (List.mem_cons_self e es))
    have h2 := ih (step s e) (step_preserves_lock_invariant s e hinv) h1.2.1 h1.2.2
      (fun e' he' => he e' (List.mem_cons_of_mem e he'))
    have hrun : run s (e :: es) = run (step s e) es := rfl
    rw [hrun, h2, h1.1]
    simp only [completedRounds]
    omega

theorem onRestart_lock_invariant (s : State ι σ) (deck : List (Card ι σ)) :
    (onRestart s deck).flippedIds.length ≤ 2 ∧
      ((onRestart s deck).lockBoard = true ↔ (onRestart s deck).flippedIds.length = 2) := by
  unfold onRestart
  rw [runEffects_flippedIds, runEffects_lockBoard]
  simp [handleRestart]

end Lemmas

/-! ## Scoring and completion -/

section Claims

variable {ι σ : Type} [DecidableEq ι] [DecidableEq σ]

/-- C2: for every attempt count the score is `max(0, 1000 - 25 * attempts)`, that is
`1000 - 25 * attempts` cut off at zero; `score(0) = 1000`, `score(2) = 950`,
`score(40) = 0`; the score is never negative and never increases with `attempts`. -/
theorem score_spec (attempts : Nat) :
    score attempts = max 0 (1000 - 25 * (attempts : Int)) ∧
    score attempts = ((1000 - 25 * attempts : Nat) : Int) ∧
    score 0 = 1000 ∧ score 2 = 950 ∧ score 40 = 0 ∧
    0 ≤ score attempts ∧
    ∀ more : Nat, attempts ≤ more → score more ≤ score attempts := by
  refine ⟨?_, ?_, by decide, by decide, by decide, ?_, ?_⟩
  · unfold score; rw [mul_comm]
  · unfold score; omega
  · unfold score; omega
  · intro more h
    unfold score
    omega

/-- C5 as stated fails: over the empty deck the matched count equals the deck length,
yet `allMatched` is false. -/
theorem allMatched_empty_deck_counterexample :
    ¬ (allMatched (newGame ([] : List (Card Nat Nat))) = true ↔
        (newGame ([] : List (Card Nat Nat))).matchedIds.length =
          (newGame ([] : List (Card Nat Nat))).cards.length) := by
  decide

/-- C5, amended: `allMatched` is true if and only if the number of matched ids equals the
deck length and the deck is not empty; over an empty deck it is false. -/
theorem allMatched_iff (s : State ι σ) :
    (allMatched s = true ↔ s.matchedIds.length = s.cards.length ∧ 0 < s.cards.length) ∧
    (s.cards = [] → allMatched s = false) := by
  constructor
  · simp [allMatched]
  · intro h
    simp [allMatched, h]

/-! ## Flip requests -/

/-- C3: a flip request on a locked board, or for a tile that is already flipped or already
matched, returns before writing anything: the whole state is unchanged. -/
theorem flip_ignored (s : State ι σ) (cardId : ι)
    (h : s.lockBoard = true ∨ cardId ∈ s.flippedIds ∨ cardId ∈ s.matchedIds) :
    handleFlip s cardId = none ∧ onFlip s cardId = s := by
  have hn : handleFlip s cardId = none := (handleFlip_none_iff s cardId).2 h
  refine ⟨hn, ?_⟩
  unfold onFlip
  rw [hn]

/-- C3 at a concrete state: tile 7 is already matched on an unlocked board. -/
theorem flip_ignored_witness :
    onFlip { newGame [({ id := 7, emoji := 1 } : Card Nat Nat)] with matchedIds := [7] } 7 =
      { newGame [({ id := 7, emoji := 1 } : Card Nat Nat)] with matchedIds := [7] } :=
  (flip_ignored _ 7 (Or.inr (Or.inr (by decide)))).2

/-! ## Restart -/

/-- C8: restart yields flipped = empty, matched = empty, attempts = 0, unlocked, elapsed
time 0, timer stopped and the new deck, whatever the previous state was; the effects that
follow the handler change nothing. -/
theorem restart_resets (s : State ι σ) (deck : List (Card ι σ)) :
    onRestart s deck = handleRestart s deck ∧
    (onRestart s deck).flippedIds = [] ∧
    (onRestart s deck).matchedIds = [] ∧
    (onRestart s deck).attempts = 0 ∧
    (onRestart s deck).lockBoard = false ∧
    (onRestart s deck).timeMs = 0 ∧
    (onRestart s deck).timerRunning = false ∧
    (onRestart s deck).cards = deck := by
  have h : onRestart s deck = handleRestart s deck := by
    unfold onRestart runEffects
    rw [pairEffect_of_length_ne _ (by simp [handleRestart])]
    unfold completionEffect
    have : allMatched (handleRestart s deck) = false := by
      cases deck <;> simp [allMatched, handleRestart]
    simp [this]
  refine ⟨h, ?_⟩
  rw [h]
  simp [handleRestart]

/-! ## The lock -/

/-- C9: in every state reached from a new game by flip requests, timeouts firing, timer
ticks and restarts, at most two ids are flipped, and the board is locked if and only if
exactly two are. -/
theorem lock_iff_two_flipped (deck : List (Card ι σ)) (evs : List (Event ι σ)) :
    (run (newGame deck) evs).flippedIds.length ≤ 2 ∧
    ((run (newGame deck) evs).lockBoard = true ↔
      (run (newGame deck) evs).flippedIds.length = 2) :=
  run_preserves_lock_invariant evs (newGame deck) (by simp [newGame])

/-! ## Matching and attempts -/

/-- C6: on an unlocked board with exactly one flipped tile `a`, an accepted flip of a
second tile `b` (both tiles of the deck) appends exactly `a` and `b` to the matched list
when their symbols are equal and leaves it unchanged when they differ; a first flip, an
ignored flip, a timeout firing and a timer tick leave the matched list unchanged. -/
theorem matched_grows_on_matching_pair (s : State ι σ) (a b : ι) (ca cb : Card ι σ)
    (hl : s.lockBoard = false) (hf : s.flippedIds = [a])
    (hb : b ∉ s.flippedIds) (hm : b ∉ s.matchedIds)
    (hca : findCard s.cards a = some ca) (hcb : findCard s.cards b = some cb) :
    (ca.emoji = cb.emoji → (onFlip s b).matchedIds = s.matchedIds ++ [a, b]) ∧
    (ca.emoji ≠ cb.emoji → (onFlip s b).matchedIds = s.matchedIds) ∧
    (∀ (t : State ι σ) (c : ι), t.flippedIds = [] →
      (onFlip t c).matchedIds = t.matchedIds) ∧
    (∀ (t : State ι σ) (c : ι),
      t.lockBoard = true ∨ c ∈ t.flippedIds ∨ c ∈ t.matchedIds →
      (onFlip t c).matchedIds = t.matchedIds) ∧
    (∀ (t : State ι σ) (k : Nat), (onTimeout t k).matchedIds = t.matchedIds) ∧
    (∀ t : State ι σ, (onTick t).matchedIds = t.matchedIds) := by
  have h := (onFlip_second s a b ca cb hl hf hb hm hca hcb).2
  refine ⟨fun he => ?_, fun he => ?_, fun t c h0 => (onFlip_first t c h0).1,
    fun t c hi => ?_, fun t k => (onTimeout_fields t k).1, fun t => (onTick_fields t).1⟩
  · rw [h, if_pos he]
  · rw [h, if_neg he]
  · rw [onFlip_ignored t c hi]

/-- C6 at a concrete state: tile 0 is flipped and its partner, tile 2, is flipped next. -/
theorem matched_grows_on_matching_pair_witness :
    (onFlip oneFlipped 2).matchedIds = oneFlipped.matchedIds ++ [0, 2] :=
  (matched_grows_on_matching_pair oneFlipped 0 2 { id := 0, emoji := 0 }
    { id := 2, emoji := 0 } (by decide) (by decide) (by decide) (by decide) (by decide)
    (by decide)).1 rfl

/-- C7: `attempts` grows by exactly 1 on every accepted second flip of two deck tiles,
matching or not, and is unchanged by first flips, ignored flips, timeouts firing and timer
ticks; so from a new game, after any sequence of flips of deck tiles, timeouts and ticks,
`attempts` equals the number of completed two-flip rounds in the sequence. -/
theorem attempts_counts_rounds (deck : List (Card ι σ)) (evs : List (Event ι σ))
    (he : ∀ e ∈ evs, inGame deck e = true) :
    (run (newGame deck) evs).attempts = completedRounds (newGame deck) evs ∧
    (∀ (s : State ι σ) (a b : ι) (ca cb : Card ι σ),
      s.lockBoard = false → s.flippedIds = [a] → b ∉ s.flippedIds → b ∉ s.matchedIds →
      findCard s.cards a = some ca → findCard s.cards b = some cb →
      (onFlip s b).attempts = s.attempts + 1) ∧
    (∀ (t : State ι σ) (c : ι), t.flippedIds = [] → (onFlip t c).attempts = t.attempts) ∧
    (∀ (t : State ι σ) (c : ι),
      t.lockBoard = true ∨ c ∈ t.flippedIds ∨ c ∈ t.matchedIds →
      (onFlip t c).attempts = t.attempts) ∧
    (∀ (t : State ι σ) (k : Nat), (onTimeout t k).attempts = t.attempts) ∧
    (∀ t : State ι σ, (onTick t).attempts = t.attempts) := by
  refine ⟨?_, fun s a b ca cb hl hf hb hm hca hcb =>
      (onFlip_second s a b ca cb hl hf hb hm hca hcb).1,
    fun t c h0 => (onFlip_first t c h0).2, fun t c hi => ?_,
    fun t k => (onTimeout_fields t k).2.1, fun t => (onTick_fields t).2.1⟩
  · have h := run_attempts deck evs (newGame deck) (by simp [newGame]) rfl
      (by simp [newGame]) he
    rw [h]
    simp [newGame]
  · rw [onFlip_ignored t c hi]

/-- C7 on the recovery scenario: a mismatch (tiles 0 and 1), its resolution, then a match
(tiles 0 and 2), two rounds and two attempts. -/
theorem attempts_counts_rounds_witness :
    (run (newGame deckAB) [.flip 0, .flip 1, .timeout 0, .flip 0, .flip 2]).attempts = 2 ∧
    completedRounds (newGame deckAB) [.flip 0, .flip 1, .timeout 0, .flip 0, .flip 2] = 2 :=
  ⟨(attempts_counts_rounds deckAB [.flip 0, .flip 1, .timeout 0, .flip 0, .flip 2]
      (by decide)).1.trans (by decide), by decide⟩

/-! ## Timeouts that outlive a restart -/

/-- C4 as stated fails: the pair (0, 1) schedules its resolution, the game is restarted
and tile 10 of the new deck is flipped; the only timeout pending is the one scheduled
before the restart, and when it fires it clears the flipped list of the new game. -/
theorem stale_resolution_counterexample :
    (run (newGame deckAB) [.flip 0, .flip 1]).timeouts = [FLIP_DELAY_MS] ∧
    restartedDuringDelay.timeouts = [FLIP_DELAY_MS] ∧
    restartedDuringDelay.flippedIds = [10] ∧
    (onTimeout restartedDuringDelay 0).flippedIds = [] ∧
    ¬ ((onTimeout restartedDuringDelay 0).flippedIds = restartedDuringDelay.flippedIds ∧
       (onTimeout restartedDuringDelay 0).matchedIds = restartedDuringDelay.matchedIds ∧
       (onTimeout restartedDuringDelay 0).attempts = restartedDuringDelay.attempts ∧
       (onTimeout restartedDuringDelay 0).lockBoard = restartedDuringDelay.lockBoard) := by
  decide

/-- C4, amended: in every state reached after a restart, a timeout firing (one scheduled
before the restart included) leaves the matched ids, the attempts and the deck unchanged,
and it empties the flipped list and unlocks the board; so flipped ids, matched ids,
attempts and lock are all unchanged when no tile is flipped at that moment. -/
theorem stale_resolution_amended (s0 s : State ι σ) (deck : List (Card ι σ))
    (evs : List (Event ι σ)) (k : Nat) (hs : s = run (onRestart s0 deck) evs) :
    (onTimeout s k).matchedIds = s.matchedIds ∧
    (onTimeout s k).attempts = s.attempts ∧
    (onTimeout s k).cards = s.cards ∧
    (k < s.timeouts.length →
      (onTimeout s k).flippedIds = [] ∧ (onTimeout s k).lockBoard = false) ∧
    (s.flippedIds = [] →
      (onTimeout s k).flippedIds = s.flippedIds ∧
      (onTimeout s k).lockBoard = s.lockBoard) := by
  refine ⟨(onTimeout_fields s k).1, (onTimeout_fields s k).2.1, (onTimeout_fields s k).2.2.1,
    onTimeout_fired s k, fun h0 => ?_⟩
  have hinv := run_preserves_lock_invariant evs (onRestart s0 deck)
    (onRestart_lock_invariant s0 deck)
  rw [← hs] at hinv
  have hl : s.lockBoard = false := by
    cases hlb : s.lockBoard with
    | false => rfl
    | true =>
      have h2 := hinv.2.1 hlb
      rw [h0] at h2
      simp at h2
  by_cases hk : k < s.timeouts.length
  · rw [(onTimeout_fired s k hk).1, (onTimeout_fired s k hk).2, h0, hl]
    exact ⟨rfl, rfl⟩
  · unfold onTimeout
    rw [if_neg hk]
    exact ⟨rfl, rfl⟩

/-- C4, amended, on the restarted game: the timeout scheduled before the restart fires
while tile 10 is flipped; matched ids and attempts stay, the flipped list is emptied. -/
theorem stale_resolution_amended_witness :
    (onTimeout restartedDuringDelay 0).matchedIds = restartedDuringDelay.matchedIds ∧
    (onTimeout restartedDuringDelay 0).attempts = restartedDuringDelay.attempts ∧
    (onTimeout restartedDuringDelay 0).flippedIds = [] ∧
    (onTimeout restartedDuringDelay 0).lockBoard = false :=
  have h := stale_resolution_amended (run (newGame deckAB) [.flip 0, .flip 1])
    restartedDuringDelay deckAB2 [.flip 10] 0 rfl
  ⟨h.1, h.2.1, (h.2.2.2.1 (by decide)).1, (h.2.2.2.1 (by decide)).2⟩

/-! ## Deck generation -/

/-- C1: for every list of distinct symbols and every outcome of the random source, the
deck has length `2 * |S|`, every symbol of `S` is on exactly two tiles and no other symbol
is on any tile; `shuffle` returns a permutation of the list it is given; in particular
the deck of the shipped `EMOJIS` has 16 tiles, two per emoji. -/
theorem buildDeck_two_per_symbol (symbols : List σ) (uuid : Nat → ι) (rnd : Nat → Nat)
    (hS : symbols.Nodup) :
    (buildDeckOf symbols uuid rnd).length = 2 * symbols.length ∧
    (∀ s, s ∈ symbols →
      (buildDeckOf symbols uuid rnd).countP (fun c => decide (c.emoji = s)) = 2) ∧
    (∀ s, s ∉ symbols →
      (buildDeckOf symbols uuid rnd).countP (fun c => decide (c.emoji = s)) = 0) ∧
    (∀ (β : Type) (array : List β), (shuffle rnd array).Perm array) ∧
    (buildDeck uuid rnd).length = 16 ∧
    (∀ s, s ∈ EMOJIS →
      (buildDeck uuid rnd).countP (fun c => decide (c.emoji = s)) = 2) := by
  have hcount : ∀ (S : List σ) (s : σ),
      (buildDeckOf S uuid rnd).countP (fun c => decide (c.emoji = s)) = 2 * S.count s := by
    intro S s
    unfold buildDeckOf
    rw [(shuffle_perm rnd _).countP_eq, pairs_countP]
  have hcountE : ∀ s : String,
      (buildDeck uuid rnd).countP (fun c => decide (c.emoji = s)) = 2 * EMOJIS.count s := by
    intro s
    unfold buildDeck buildDeckOf
    rw [(shuffle_perm rnd _).countP_eq, pairs_countP]
  have hE : EMOJIS.Nodup := by decide
  refine ⟨?_, fun s hs => ?_, fun s hs => ?_, fun β array => shuffle_perm rnd array, ?_,
    fun s hs => ?_⟩
  · unfold buildDeckOf
    rw [(shuffle_perm rnd _).length_eq, pairs_length]
  · rw [hcount, List.count_eq_one_of_mem hS hs]
  · rw [hcount, List.count_eq_zero_of_not_mem hs]
  · unfold buildDeck buildDeckOf
    rw [(shuffle_perm rnd _).length_eq, pairs_length]
    rfl
  · rw [hcountE, List.count_eq_one_of_mem hE hs]

/-- C1 on three symbols, with the draws `j = i / 2`. -/
theorem buildDeck_two_per_symbol_witness :
    (buildDeckOf [5, 6, 7] (fun k => k) (fun i => i / 2)).length = 2 * [5, 6, 7].length ∧
    (buildDeckOf [5, 6, 7] (fun k => k) (fun i => i / 2)).countP
      (fun c => decide (c.emoji = 6)) = 2 :=
  have h := buildDeck_two_per_symbol [5, 6, 7] (fun k => k) (fun i => i / 2) (by decide)
  ⟨h.1, h.2.1 6 (by decide)⟩

/-- C10: over an array of `n` distinct entries the swap-index sequences the loop can draw
(`jᵢ` in `0..i` for `i = n-1` down to `1`) are `n!` many, every permutation of the array
is the shuffle by one of them, two of them that give the same shuffle are equal, and so
the shuffles by all of them are the permutations of the array, each exactly once. -/
theorem shuffle_uniform {α : Type} (l : List α) (hl : l.Nodup) :
    (∀ p : List α, p.Perm l → ∃ rnd : Nat → Nat, (∀ i, rnd i ≤ i) ∧ shuffle rnd l = p) ∧
    (∀ rnd rnd' : Nat → Nat,
      (∀ i, 0 < i → i < l.length → rnd i ≤ i) →
      (∀ i, 0 < i → i < l.length → rnd' i ≤ i) →
      shuffle rnd l = shuffle rnd' l → ∀ i, 0 < i → i < l.length → rnd i = rnd' i) ∧
    (∀ js : List Nat, js ∈ drawSeqs (l.length - 1) ↔
      js.length = l.length - 1 ∧ ∀ k, k < l.length - 1 → js.getD k 0 ≤ k + 1) ∧
    (drawSeqs (l.length - 1)).length = Nat.factorial l.length ∧
    ((drawSeqs (l.length - 1)).map (fun js => shuffle (drawsOf js) l)).Perm
      l.permutations := by
  refine ⟨fun p hp => shuffle_surj l p hl hp, fun rnd rnd' hr hr' h => shuffle_inj l hl rnd
    rnd' hr hr' h, fun js => mem_drawSeqs _ js, ?_, shuffle_drawSeqs_perm l hl⟩
  have h := (shuffle_drawSeqs_perm l hl).length_eq
  rw [List.length_map, List.length_permutations] at h
  exact h

/-- C10 on a three-element array: the six draw sequences give its six permutations. -/
theorem shuffle_uniform_witness :
    ((drawSeqs 2).map (fun js => shuffle (drawsOf js) [0, 1, 2])).Perm
      [0, 1, 2].permutations ∧
    (drawSeqs 2).length = 6 :=
  have h := shuffle_uniform [0, 1, 2] (by decide)
  ⟨h.2.2.2.2, h.2.2.2.1⟩

end Claims

end CardGame
